import Mathlib

/-
Verification of the scrape-and-summarize pipeline
(src/scrape_and_summarize.py).

Text is modelled as a list of characters (Python str is a sequence of
code points, and Python len counts code points).  Pure functions of the
source are translated directly; the Playwright-driven collection loop is
modelled as a fold over the sequence of rendered item lists, with the
external collaborators (datetime.fromisoformat, the browser, the
generation service, the environment) abstracted as function parameters.
Fallible code returns Except: a Python exception is an .error value.
-/

namespace Scrape

abbrev Chars := List Char

/-! ### Chunker: chunk_text (src lines 160-173)

def chunk_text(s, max_chars=15000):
    s = s.replace("\r\n", "\n")
    chunks, cur, total = [], [], 0
    for block in s.split("\n\n"):
        block += "\n\n"
        if cur and total + len(block) > max_chars:
            chunks.append("".join(cur))
            cur, total = [], 0
        cur.append(block)
        total += len(block)
    if cur:
        chunks.append("".join(cur))
    return chunks
-/

/-- The blank-line block separator used by chunk_text. -/
def sepNN : Chars := ['\n', '\n']

/-- Python s.replace("\r\n", "\n"): non-overlapping, left-to-right. -/
def normalizeCRLF : Chars → Chars
  | [] => []
  | '\r' :: '\n' :: cs => '\n' :: normalizeCRLF cs
  | c :: cs => c :: normalizeCRLF cs

/-- Helper for splitSep: prepend a character to the first field. -/
def consHead (c : Char) : List Chars → List Chars
  | [] => [[c]]
  | r :: rs => (c :: r) :: rs

/-- Python s.split("\n\n"): fields between non-overlapping, left-to-right
occurrences of the two-character separator.  On the empty string Python
returns [""], hence the [[]] base case. -/
def splitSep : Chars → List Chars
  | [] => [[]]
  | '\n' :: '\n' :: cs => [] :: splitSep cs
  | c :: cs => consHead c (splitSep cs)

/-- The accumulation loop of chunk_text, instrumented to keep each chunk
as its list of separator-suffixed blocks (the Python cur list) instead of
the joined string; chunk_text is the List.flatten image (Python joins cur
with "".join at every flush).  cur is the pending chunk, total its length
(the Python total variable). -/
def chunkLoopB (maxChars : Nat) : List Chars → Nat → List Chars → List (List Chars)
  | cur, _, [] => if cur = [] then [] else [cur]
  | cur, total, b :: bs =>
    let block := b ++ sepNN
    if cur ≠ [] ∧ maxChars < total + block.length then
      cur :: chunkLoopB maxChars [block] block.length bs
    else
      chunkLoopB maxChars (cur ++ [block]) (total + block.length) bs

/-- chunk_text with its chunks kept as block lists. -/
def chunkBlocks (s : Chars) (max_chars : Nat) : List (List Chars) :=
  chunkLoopB max_chars [] 0 (splitSep (normalizeCRLF s))

/-- chunk_text(s, max_chars): greedy chunking of the blank-line separated
blocks of the CRLF-normalized text, re-appending the separator to every
block. -/
def chunk_text (s : Chars) (max_chars : Nat) : List Chars :=
  (chunkBlocks s max_chars).map List.flatten


/-- Appending the separator to every field of splitSep and concatenating
gives back the text followed by one extra separator. -/
def joinMapSep (bs : List Chars) : Chars := (bs.map (fun b => b ++ sepNN)).flatten

/-- UTF-8 byte length of a text (Python len counts code points; the file
and the generation requests are UTF-8 encoded). -/
def utf8Len (cs : Chars) : Nat := (cs.map Char.utf8Size).sum

/-! ### Collector: scrape_last_hours (src lines 70-136)

One rendered tweet article is modelled by the attributes the loop reads:

- linkHref: the permalink anchor; outer none = no matching a element,
  inner value = its href attribute (get_attribute may return None).
- timeAttr: the time element; outer none = no time element, inner value
  = its datetime attribute.
- parts: the inner texts of the tweetText nodes.

Instants are modelled as Int (aware datetimes compare by instant; the
astimezone conversion preserves the instant and, for one fixed output
timezone, is injective, so rows carry the instant itself).  The external
datetime.fromisoformat is an abstract parameter parse; none models a
string it rejects, which in Python raises ValueError.
-/

structure Item where
  linkHref : Option (Option String)
  timeAttr : Option (Option String)
  parts : List String
deriving DecidableEq

structure Row where
  time : Int
  text : String
deriving DecidableEq

structure St where
  rows : List Row
  seen : List String
deriving DecidableEq

/-- Python "\n".join(parts). -/
def joinNL : List String → String
  | [] => ""
  | [x] => x
  | x :: xs => x ++ "\n" ++ joinNL xs

/-- Python str.strip(): remove leading and trailing whitespace. -/
def pyStrip (cs : Chars) : Chars :=
  (((cs.dropWhile Char.isWhitespace).reverse).dropWhile Char.isWhitespace).reverse

/-- The tweet text: "\n".join(inner texts).strip() if parts else "". -/
def extractText (a : Item) : String :=
  if a.parts = [] then "" else String.mk (pyStrip (joinNL a.parts).toList)

/-- href = link_el.get_attribute("href") followed by the falsy test
`if not href`: produces an identifier only when the link element exists
and its href is a nonempty string. -/
def extractHref (a : Item) : Option String :=
  match a.linkHref with
  | none => none
  | some none => none
  | some (some h) => if h = "" then none else some h

/-- dt_str = t_el.get_attribute("datetime") with the falsy test
`if not dt_str`. -/
def extractDt (a : Item) : Option String :=
  match a.timeAttr with
  | none => none
  | some none => none
  | some (some d) => if d = "" then none else some d

/-- Python dt_str.replace("Z", "+00:00") - every occurrence. -/
def replaceZchars : Chars → Chars
  | [] => []
  | 'Z' :: cs => '+' :: '0' :: '0' :: ':' :: '0' :: '0' :: replaceZchars cs
  | c :: cs => c :: replaceZchars cs

def replaceZ (s : String) : String := String.mk (replaceZchars s.toList)

/-- The full per-item extraction, independent of the seen set: the
identifier, the parsed instant and the text, when all three gates pass. -/
def extract (parse : String → Option Int) (a : Item) : Option (String × Int × String) :=
  match extractHref a with
  | none => none
  | some h =>
    match extractDt a with
    | none => none
    | some ds =>
      match parse (replaceZ ds) with
      | none => none
      | some t => some (h, t, extractText a)

/-- The loop body for one article, with the checks in source order: link
element, href truthiness and seen-set, time element, datetime attribute,
fromisoformat (raises on a malformed string - modelled as .error), cutoff
test, append to rows and add href to seen. -/
def processItemE (parse : String → Option Int) (cutoff : Int) (st : St) (a : Item) :
    Except String St :=
  match extractHref a with
  | none => .ok st
  | some href =>
    if href ∈ st.seen then .ok st
    else
      match extractDt a with
      | none => .ok st
      | some ds =>
        match parse (replaceZ ds) with
        | none => .error "ValueError: invalid isoformat string"
        | some dt =>
          if dt < cutoff then .ok st
          else .ok ⟨st.rows ++ [⟨dt, extractText a⟩], href :: st.seen⟩

/-- Total surrogate of processItemE, used when no parse failure occurs. -/
def stepPure (parse : String → Option Int) (cutoff : Int) (st : St) (a : Item) : St :=
  match extract parse a with
  | none => st
  | some (h, t, txt) =>
    if h ∈ st.seen then st
    else if t < cutoff then st
    else ⟨st.rows ++ [⟨t, txt⟩], h :: st.seen⟩

/-- No-parse-failure gate for one item: whenever the identifier and the
datetime attribute are both present, fromisoformat succeeds. -/
def itemOkB (parse : String → Option Int) (a : Item) : Bool :=
  match extractHref a with
  | none => true
  | some _ =>
    match extractDt a with
    | none => true
    | some ds => (parse (replaceZ ds)).isSome

/-- Identity stability of the rendering surface: two renderings with the
same identifier extract the same instant and text. -/
def consistentB (parse : String → Option Int) (a b : Item) : Bool :=
  match extract parse a, extract parse b with
  | some (h1, t1, x1), some (h2, t2, x2) => !(h1 == h2) || (t1 == t2 && x1 == x2)
  | _, _ => true

/-- cutoff = datetime.now(utc) - timedelta(hours=hours_back), in seconds. -/
def cutoffOf (now hours_back : Int) : Int := now - hours_back * 3600

/-- The scroll-and-collect loop (src lines 100-129): iters is the list of
article lists returned by query_selector_all at each scroll iteration;
the state threads rows and seen across all iterations. -/
def scrapeRows (parse : String → Option Int) (now hours_back : Int)
    (iters : List (List Item)) : Except String (List Row) :=
  match iters.foldlM
      (fun st items => items.foldlM (processItemE parse (cutoffOf now hours_back)) st)
      (⟨[], []⟩ : St) with
  | .error e => .error e
  | .ok st => .ok st.rows

/-- Python dict comprehension keyed by ((astimezone time).isoformat(),
text): key order is first insertion, and since the key determines the
whole row value (the isoformat of the converted instant is injective for
the fixed output timezone), dict.values() retains the first occurrence of
each (time, text) pair. -/
def dedupFirst (rows : List Row) : List Row :=
  rows.foldl (fun m r => if r ∈ m then m else m ++ [r]) []

/-- Stable insertion for descending sort by time: an element moves before
strictly older entries only, so earlier rows stay ahead of equal-time
later rows, as with the stable Python list.sort. -/
def insertDesc (r : Row) : List Row → List Row
  | [] => [r]
  | x :: xs => if x.time ≤ r.time then r :: x :: xs else x :: insertDesc r xs

/-- rows.sort(key=time, reverse=True): a stable descending sort. -/
def sortDesc : List Row → List Row
  | [] => []
  | x :: xs => insertDesc x (sortDesc xs)

/-- scrape_last_hours: the loop followed by dedup and newest-first sort
(src lines 133-136). -/
def scrape_last_hours (parse : String → Option Int) (now hours_back : Int)
    (iters : List (List Item)) : Except String (List Row) :=
  match scrapeRows parse now hours_back iters with
  | .error e => .error e
  | .ok rows => .ok (sortDesc (dedupFirst rows))

deriving instance DecidableEq for Except

/-- Concrete stand-in for datetime.fromisoformat used by witnesses:
recognizes two timestamp strings, rejects everything else. -/
def parse0 : String → Option Int := fun s =>
  if s = "T0" then some 0 else if s = "T1" then some 3600 else none

/-- A rendered tweet whose instant is exactly the cutoff of the witness
runs (now = 3600, hours_back = 1). -/
def itemT0 : Item := ⟨some (some "/status/1"), some (some "T0"), ["hello"]⟩

/-- A rendered tweet one hour newer than itemT0. -/
def itemT1 : Item := ⟨some (some "/status/2"), some (some "T1"), ["world"]⟩

/-- A rendered tweet with a distinct identity but the same instant and
text as itemT0. -/
def itemDup : Item := ⟨some (some "/status/3"), some (some "T0"), ["hello"]⟩

/-- A rendered tweet whose datetime attribute parse0 rejects. -/
def itemBad : Item := ⟨some (some "/status/9"), some (some "BAD"), []⟩

/-- Identity stability as a proposition over a set of items. -/
def Consistent (parse : String → Option Int) (P : List Item) : Prop :=
  ∀ a ∈ P, ∀ b ∈ P, ∀ h t1 x1 t2 x2,
    extract parse a = some (h, t1, x1) → extract parse b = some (h, t2, x2) →
    t1 = t2 ∧ x1 = x2

/-- Collection-loop invariant over the processed prefix P: every
accumulated row comes from a processed item at or after the cutoff, every
processed extractable item at or after the cutoff is in rows, and every
seen identifier comes from a retained item. -/
def Inv (parse : String → Option Int) (cutoff : Int) (P : List Item) (st : St) : Prop :=
  (∀ r ∈ st.rows, ∃ a ∈ P, ∃ h, extract parse a = some (h, r.time, r.text) ∧ cutoff ≤ r.time) ∧
  (∀ a ∈ P, ∀ h t txt, extract parse a = some (h, t, txt) → cutoff ≤ t →
    (⟨t, txt⟩ : Row) ∈ st.rows) ∧
  (∀ h ∈ st.seen, ∃ a ∈ P, ∃ t txt, extract parse a = some (h, t, txt) ∧ cutoff ≤ t)

/-! ### Pipeline: require_gemini (src 148-152), summarize_tweets_to_md
(src 205-222) and main (src 228-244)

The outward-facing effects are kept as an event trace: navigate is the
page.goto of the Collector, genRequest one model.generate_content call,
writeSummary the final whole-file write.  The generation service is the
abstract pair gen1 (per-chunk map) and gen2 (final reduce); a returned
none models a null response text, which the code coerces to "".  main
runs the scraper first, saves the corpus, then summarizes the saved
text. -/

inductive Ev where
  | navigate
  | genRequest
  | writeSummary
deriving DecidableEq

/-- os.getenv("GOOGLE_API_KEY") with the falsy test `if not key`;
genai.configure performs no request. -/
def require_gemini (env : String → Option String) : Except String Unit :=
  match env "GOOGLE_API_KEY" with
  | none => .error "Missing GOOGLE_API_KEY environment variable."
  | some k =>
    if k = "" then .error "Missing GOOGLE_API_KEY environment variable."
    else .ok ()

def OUT_TXT : String := "financialjuice_last_hours.txt"

/-- The separator final_synthesis joins the partial summaries with. -/
def chunkSplitSep : Chars := "\n\n--- CHUNK SPLIT ---\n\n".toList

/-- Python sep.join(parts). -/
def intercalateChars (s : Chars) : List Chars → Chars
  | [] => []
  | [x] => x
  | x :: xs => x ++ s ++ intercalateChars s xs

/-- save_tweets_txt (src 139-142): one "time | text" block per row,
each followed by a blank line; fmtTime abstracts strftime on the
timezone-converted instant. -/
def serializeRows (fmtTime : Int → String) (rows : List Row) : Chars :=
  (rows.map fun r => (fmtTime r.time).toList ++ " | ".toList ++ r.text.toList ++ sepNN).flatten

/-- summarize_tweets_to_md: require_gemini, then load_tweets (read and
strip), the empty-corpus guard naming the path, chunking, one generation
request per chunk (summarize_chunks), one final generation request
(final_synthesis), and the summary write. -/
def summarize_tweets_to_md (env : String → Option String) (gen1 gen2 : Chars → Option Chars)
    (fileContent : Chars) (tweets_path : String) (max_chars_per_chunk : Nat) :
    List Ev × Except String Chars :=
  match require_gemini env with
  | .error e => ([], .error e)
  | .ok _ =>
    let raw := pyStrip fileContent
    if raw = [] then ([], .error ("Tweet file is empty: " ++ tweets_path))
    else
      let chunks := chunk_text raw max_chars_per_chunk
      let per_chunk := chunks.map fun ch => pyStrip ((gen1 ch).getD [])
      let md := pyStrip ((gen2 (intercalateChars chunkSplitSep per_chunk)).getD [])
      (chunks.map (fun _ => Ev.genRequest) ++ [Ev.genRequest, Ev.writeSummary], .ok md)

/-- main: scrape (navigation I/O first), save the corpus, then
summarize the saved text. -/
def mainModel (env : String → Option String) (parse : String → Option Int)
    (fmtTime : Int → String) (gen1 gen2 : Chars → Option Chars)
    (now hours_back : Int) (iters : List (List Item)) (max_chars_per_chunk : Nat) :
    List Ev × Except String Chars :=
  match scrape_last_hours parse now hours_back iters with
  | .error e => ([Ev.navigate], .error e)
  | .ok rows =>
    let res := summarize_tweets_to_md env gen1 gen2 (serializeRows fmtTime rows)
      OUT_TXT max_chars_per_chunk
    (Ev.navigate :: res.1, res.2)

/-- Environment with no credential. -/
def env0 : String → Option String := fun _ => none

/-- Environment holding a credential. -/
def envK : String → Option String := fun s =>
  if s = "GOOGLE_API_KEY" then some "k" else none

/-- Generation service stub returning a null response text. -/
def gen0 : Chars → Option Chars := fun _ => none

/-- Timestamp formatter stub. -/
def fmt0 : Int → String := fun _ => "t"

/-! ### Chunker lemmas -/

theorem splitSep_ne_nil : ∀ cs : Chars, splitSep cs ≠ [] := by
  intro cs
  induction cs using splitSep.induct with
  | case1 => simp [splitSep]
  | case2 cs ih => simp [splitSep]
  | case3 c cs h1 ih =>
    simp only [splitSep]
    cases h : splitSep cs <;> simp [consHead]


theorem joinMapSep_splitSep : ∀ cs : Chars, joinMapSep (splitSep cs) = cs ++ sepNN := by
  intro cs
  induction cs using splitSep.induct with
  | case1 => simp [splitSep, joinMapSep, sepNN]
  | case2 cs ih => simp_all [splitSep, joinMapSep, sepNN]
  | case3 c cs h1 ih =>
    simp only [splitSep]
    cases h : splitSep cs with
    | nil => exact absurd h (splitSep_ne_nil cs)
    | cons r rs =>
      rw [h] at ih
      simp only [consHead, joinMapSep, List.map, List.flatten] at ih ⊢
      simp only [List.cons_append, List.append_assoc] at ih ⊢
      rw [ih]

theorem chunkLoopB_flatten (maxChars : Nat) :
    ∀ (bs : List Chars) (cur : List Chars) (total : Nat),
      ((chunkLoopB maxChars cur total bs).map List.flatten).flatten
        = cur.flatten ++ joinMapSep bs := by
  intro bs
  induction bs with
  | nil =>
    intro cur total
    by_cases h : cur = [] <;> simp [chunkLoopB, h, joinMapSep]
  | cons b bs ih =>
    intro cur total
    simp only [chunkLoopB]
    by_cases h : cur ≠ [] ∧ maxChars < total + (b ++ sepNN).length
    · rw [if_pos h]
      simp only [List.map, List.flatten, ih]
      simp [joinMapSep, List.append_assoc]
    · rw [if_neg h]
      rw [ih]
      simp [joinMapSep, List.append_assoc]

/-- Every chunk the loop emits is a nonempty block list: flushes are
guarded by cur being nonempty, and appends keep cur nonempty. -/
theorem chunkLoopB_ne_nil (maxChars : Nat) :
    ∀ (bs : List Chars) (cur : List Chars) (total : Nat),
      ∀ bc ∈ chunkLoopB maxChars cur total bs, bc ≠ [] := by
  intro bs
  induction bs with
  | nil =>
    intro cur total bc hbc
    by_cases h : cur = [] <;> simp [chunkLoopB, h] at hbc
    subst hbc; exact h
  | cons b bs ih =>
    intro cur total bc hbc
    simp only [chunkLoopB] at hbc
    by_cases h : cur ≠ [] ∧ maxChars < total + (b ++ sepNN).length
    · rw [if_pos h] at hbc
      rcases List.mem_cons.mp hbc with rfl | hmem
      · exact h.1
      · exact ih _ _ bc hmem
    · rw [if_neg h] at hbc
      exact ih _ _ bc hbc

/-- Loop invariant for the budget: whenever the pending chunk cur holds
two or more blocks, its total length is within the budget; hence every
emitted multi-block chunk is within the budget. -/
theorem chunkLoopB_bound (maxChars : Nat) :
    ∀ (bs : List Chars) (cur : List Chars) (total : Nat),
      total = (cur.map List.length).sum →
      (2 ≤ cur.length → total ≤ maxChars) →
      ∀ bc ∈ chunkLoopB maxChars cur total bs,
        2 ≤ bc.length → (bc.flatten).length ≤ maxChars := by
  intro bs
  induction bs with
  | nil =>
    intro cur total htot hbound bc hbc h2
    by_cases h : cur = [] <;> simp [chunkLoopB, h] at hbc
    subst hbc
    rw [List.length_flatten, ← htot]
    exact hbound h2
  | cons b bs ih =>
    intro cur total htot hbound bc hbc h2
    simp only [chunkLoopB] at hbc
    by_cases h : cur ≠ [] ∧ maxChars < total + (b ++ sepNN).length
    · rw [if_pos h] at hbc
      rcases List.mem_cons.mp hbc with rfl | hmem
      · rw [List.length_flatten, ← htot]
        exact hbound h2
      · refine ih _ _ (by simp) ?_ bc hmem h2
        intro habs; simp at habs
    · rw [if_neg h] at hbc
      rcases Decidable.not_and_iff_or_not.mp h with hc | hlen
      · have hcur : cur = [] := Decidable.of_not_not hc
        subst hcur
        refine ih _ _ (by simpa using htot) ?_ bc hbc h2
        intro habs; simp at habs
      · have hle : total + (b ++ sepNN).length ≤ maxChars := Nat.le_of_not_lt hlen
        refine ih _ _ ?_ (fun _ => hle) bc hbc h2
        simp [htot, Nat.add_comm]

/-- Core comparison for budget monotonicity.  Running the loop from two
nonempty pending chunks under budgets B1 le B2: if the larger-budget side
has accumulated no more pending length, it emits no more chunks; in any
case it emits at most one more chunk. -/
theorem chunkLoopB_mono (B1 B2 : Nat) (hB : B1 ≤ B2) :
    ∀ (bs : List Chars) (cur1 : List Chars) (t1 : Nat) (cur2 : List Chars) (t2 : Nat),
      cur1 ≠ [] → cur2 ≠ [] →
      ((t2 ≤ t1 → (chunkLoopB B2 cur2 t2 bs).length ≤ (chunkLoopB B1 cur1 t1 bs).length) ∧
       (chunkLoopB B2 cur2 t2 bs).length ≤ (chunkLoopB B1 cur1 t1 bs).length + 1) := by
  intro bs
  induction bs with
  | nil =>
    intro cur1 t1 cur2 t2 h1 h2
    simp [chunkLoopB, h1, h2]
  | cons b bs ih =>
    intro cur1 t1 cur2 t2 h1 h2
    set L := (b ++ sepNN).length with hL
    have hblk : (b ++ sepNN) ≠ [] := by simp [sepNN]
    constructor
    · intro hle
      simp only [chunkLoopB, ← hL]
      by_cases hF2 : B2 < t2 + L
      · have hF1 : B1 < t1 + L := lt_of_le_of_lt hB (lt_of_lt_of_le hF2 (by omega))
        rw [if_pos ⟨h2, hF2⟩, if_pos ⟨h1, hF1⟩]
        simp only [List.length_cons, Nat.add_le_add_iff_right]
        exact ((ih _ _ _ _ (by simp) (by simp)).1 le_rfl)
      · rw [if_neg (by tauto)]
        by_cases hF1 : B1 < t1 + L
        · rw [if_pos ⟨h1, hF1⟩]
          simp only [List.length_cons]
          have := (ih [b ++ sepNN] L (cur2 ++ [b ++ sepNN]) (t2 + L) (by simp) (by simp)).2
          omega
        · rw [if_neg (by tauto)]
          exact (ih _ _ _ _ (by simp) (by simp)).1 (by omega)
    · simp only [chunkLoopB, ← hL]
      by_cases hF2 : B2 < t2 + L
      · rw [if_pos ⟨h2, hF2⟩]
        by_cases hF1 : B1 < t1 + L
        · rw [if_pos ⟨h1, hF1⟩]
          simp only [List.length_cons]
          have := (ih [b ++ sepNN] L [b ++ sepNN] L (by simp) (by simp)).1 le_rfl
          omega
        · rw [if_neg (by tauto)]
          have := (ih (cur1 ++ [b ++ sepNN]) (t1 + L) [b ++ sepNN] L (by simp) (by simp)).1 (by omega)
          simp only [List.length_cons]
          omega
      · rw [if_neg (by tauto)]
        by_cases hF1 : B1 < t1 + L
        · rw [if_pos ⟨h1, hF1⟩]
          simp only [List.length_cons]
          have := (ih [b ++ sepNN] L (cur2 ++ [b ++ sepNN]) (t2 + L) (by simp) (by simp)).2
          omega
        · rw [if_neg (by tauto)]
          exact (ih _ _ _ _ (by simp) (by simp)).2

/-- Budget monotonicity at the top level (empty initial pending chunk). -/
theorem chunkLoopB_start_mono (B1 B2 : Nat) (hB : B1 ≤ B2) (bs : List Chars) :
    (chunkLoopB B2 [] 0 bs).length ≤ (chunkLoopB B1 [] 0 bs).length := by
  cases bs with
  | nil => simp [chunkLoopB]
  | cons b bs =>
    simp only [chunkLoopB, if_neg (by simp : ¬(([] : List Chars) ≠ [] ∧ _)), List.nil_append]
    exact (chunkLoopB_mono B1 B2 hB bs [b ++ sepNN] _ [b ++ sepNN] _ (by simp [sepNN]) (by simp [sepNN])).1 le_rfl

/-- Every block stored in an emitted chunk carries its re-appended
separator. -/
theorem chunkLoopB_blocks_sep (maxChars : Nat) :
    ∀ (bs : List Chars) (cur : List Chars) (total : Nat),
      (∀ x ∈ cur, ∃ b, x = b ++ sepNN) →
      ∀ bc ∈ chunkLoopB maxChars cur total bs, ∀ x ∈ bc, ∃ b, x = b ++ sepNN := by
  intro bs
  induction bs with
  | nil =>
    intro cur total hcur bc hbc
    by_cases h : cur = [] <;> simp [chunkLoopB, h] at hbc
    subst hbc; exact hcur
  | cons b bs ih =>
    intro cur total hcur bc hbc
    simp only [chunkLoopB] at hbc
    by_cases h : cur ≠ [] ∧ maxChars < total + (b ++ sepNN).length
    · rw [if_pos h] at hbc
      rcases List.mem_cons.mp hbc with rfl | hmem
      · exact hcur
      · refine ih _ _ ?_ bc hmem
        intro x hx
        simp at hx
        exact ⟨b, hx⟩
    · rw [if_neg h] at hbc
      refine ih _ _ ?_ bc hbc
      intro x hx
      rcases List.mem_append.mp hx with hx | hx
      · exact hcur x hx
      · simp at hx
        exact ⟨b, hx⟩

/-- Concatenating a nonempty list of separator-suffixed blocks gives a
string that ends with the separator. -/
theorem flatten_sep_suffix :
    ∀ l : List Chars, l ≠ [] → (∀ x ∈ l, ∃ b, x = b ++ sepNN) →
      ∃ t, l.flatten = t ++ sepNN := by
  intro l
  induction l with
  | nil => intro h; exact absurd rfl h
  | cons x tl ih =>
    intro _ hall
    cases tl with
    | nil =>
      obtain ⟨b, hb⟩ := hall x (by simp)
      exact ⟨b, by simp [hb]⟩
    | cons y tl2 =>
      obtain ⟨t, ht⟩ := ih (by simp) (fun z hz => hall z (List.mem_cons_of_mem x hz))
      refine ⟨x ++ t, ?_⟩
      rw [List.flatten_cons, ht, List.append_assoc]

/-! ### Chunker claims -/

/-- C1, counterexample.  The claim says concatenating all chunks yields
the input exactly; on input "a" with budget 10 the single chunk is
"a\n\n", so a separator is appended that was not in the input. -/
theorem c1_counterexample :
    (chunk_text "a".toList 10).flatten ≠ "a".toList := by decide

/-- C1, amended.  For every input and budget B >= 1, concatenating in
order all chunks of chunk_text yields the CRLF-normalized input followed
by one extra "\n\n" separator (the loop re-appends the separator to every
block, including the last): nothing else is lost or duplicated. -/
theorem c1_round_trip_amended (s : Chars) (B : Nat) (hB : 1 ≤ B) :
    (chunk_text s B).flatten = normalizeCRLF s ++ sepNN := by
  unfold chunk_text chunkBlocks
  rw [chunkLoopB_flatten]
  simp [joinMapSep_splitSep]

/-- Witness for c1_round_trip_amended at s = "x\r\na", B = 3. -/
theorem c1_witness :
    (chunk_text "x\r\na".toList 3).flatten = normalizeCRLF "x\r\na".toList ++ sepNN :=
  c1_round_trip_amended "x\r\na".toList 3 (by decide)


/-- C4, counterexample.  The claim speaks of serialized byte length, but
chunk_text budgets the Python character count: with budget 7 the input
consisting of the two one-character blocks "é" is kept as a single chunk
of two blocks (6 characters), whose UTF-8 byte length is 8 > 7. -/
theorem c4_counterexample :
    chunkBlocks "é\n\né".toList 7 = [["é\n\n".toList, "é\n\n".toList]] ∧
    chunk_text "é\n\né".toList 7 = ["é\n\né\n\n".toList] ∧
    utf8Len "é\n\né\n\n".toList = 8 := by decide

/-- C4, amended.  With size measured as the code measures it (character
count, Python len), every chunk of two or more blocks has length at most
B, so every chunk whose length exceeds B consists of exactly one
(oversized, unsplit) block; chunk_text is the per-chunk concatenation of
chunkBlocks.  Measured in UTF-8 bytes the bound can be exceeded by a
multi-block chunk (see the counterexample). -/
theorem c4_oversized_amended (s : Chars) (B : Nat) (bc : List Chars)
    (hbc : bc ∈ chunkBlocks s B) :
    chunk_text s B = (chunkBlocks s B).map List.flatten ∧
    (2 ≤ bc.length → (bc.flatten).length ≤ B) ∧
    (B < (bc.flatten).length → bc.length = 1) := by
  refine ⟨rfl, fun h2 => chunkLoopB_bound B _ [] 0 (by simp) (by simp) bc hbc h2, ?_⟩
  intro hover
  have hne := chunkLoopB_ne_nil B _ [] 0 bc hbc
  have h1 : 1 ≤ bc.length := List.length_pos.mpr hne
  by_contra hne1
  have h2 : 2 ≤ bc.length := by omega
  have := chunkLoopB_bound B _ [] 0 (by simp) (by simp) bc hbc h2
  omega

/-- Witness for c4_oversized_amended: with budget 1 the single block "ab"
is emitted alone as the oversized chunk "ab\n\n". -/
theorem c4_witness :
    ([["ab\n\n".toList]] : List (List Chars)) = [["ab\n\n".toList]] ∧
    (["ab\n\n".toList] : List Chars).length = 1 :=
  ⟨rfl, (c4_oversized_amended "ab".toList 1 ["ab\n\n".toList] (by decide)).2.2 (by decide)⟩

/-- C8, confirmed.  For a fixed input, shrinking the budget never
decreases the number of chunks chunk_text produces. -/
theorem c8_monotonicity (s : Chars) (B1 B2 : Nat) (h : B1 < B2) :
    (chunk_text s B2).length ≤ (chunk_text s B1).length := by
  unfold chunk_text chunkBlocks
  simpa using chunkLoopB_start_mono B1 B2 (Nat.le_of_lt h) (splitSep (normalizeCRLF s))

/-- Witness for c8_monotonicity at s = "a\n\nb", B1 = 3, B2 = 9. -/
theorem c8_witness :
    (chunk_text "a\n\nb".toList 9).length ≤ (chunk_text "a\n\nb".toList 3).length :=
  c8_monotonicity "a\n\nb".toList 3 9 (by decide)

/-- C10, confirmed.  chunk_text always returns a nonempty list; every
chunk ends with the separator "\n\n"; the empty input yields the single
chunk "\n\n"; and the chunks are built from the CRLF-normalized text:
on "a\r\nb" the single chunk is "a\nb\n\n", not the original bytes. -/
theorem c10_chunk_shape (s : Chars) (B : Nat) :
    chunk_text s B ≠ [] ∧
    (∀ c ∈ chunk_text s B, ∃ t, c = t ++ sepNN) ∧
    chunk_text [] B = [sepNN] ∧
    chunk_text "a\r\nb".toList 100 = ["a\nb\n\n".toList] := by
  refine ⟨?_, ?_, ?_, by decide⟩
  · unfold chunk_text chunkBlocks
    cases hs : splitSep (normalizeCRLF s) with
    | nil => exact absurd hs (splitSep_ne_nil _)
    | cons b bs =>
      simp only [chunkLoopB, if_neg (by simp : ¬(([] : List Chars) ≠ [] ∧ _)), List.nil_append]
      intro habs
      have h1 := chunkLoopB_flatten B bs [b ++ sepNN] (b ++ sepNN).length
      rw [show chunkLoopB B [b ++ sepNN] (b ++ sepNN).length bs = [] from by
        simpa [chunk_text] using habs] at h1
      simp [joinMapSep, sepNN] at h1
  · intro c hc
    unfold chunk_text at hc
    obtain ⟨bc, hbc, rfl⟩ := List.mem_map.mp hc
    exact flatten_sep_suffix bc (chunkLoopB_ne_nil B _ [] 0 bc hbc)
      (chunkLoopB_blocks_sep B _ [] 0 (by simp) bc hbc)
  · simp [chunk_text, chunkBlocks, normalizeCRLF, splitSep, chunkLoopB, sepNN]

/-- Witness for c10_chunk_shape at s = "a", B = 5. -/
theorem c10_witness :
    ∃ t, ("a\n\n".toList : Chars) = t ++ sepNN :=
  (c10_chunk_shape "a".toList 5).2.1 "a\n\n".toList (by decide)


/-! ### Collector lemmas -/

theorem mem_insertDesc (r x : Row) : ∀ l : List Row, x ∈ insertDesc r l ↔ x = r ∨ x ∈ l := by
  intro l
  induction l with
  | nil => simp [insertDesc]
  | cons y ys ih =>
    simp only [insertDesc]
    by_cases h : y.time ≤ r.time
    · rw [if_pos h]; simp
    · rw [if_neg h]
      simp only [List.mem_cons, ih]
      tauto

theorem mem_sortDesc (x : Row) : ∀ l : List Row, x ∈ sortDesc l ↔ x ∈ l := by
  intro l
  induction l with
  | nil => simp [sortDesc]
  | cons y ys ih => simp [sortDesc, mem_insertDesc, ih]

theorem insertDesc_perm (r : Row) : ∀ l : List Row, List.Perm (insertDesc r l) (r :: l) := by
  intro l
  induction l with
  | nil => simp [insertDesc]
  | cons y ys ih =>
    simp only [insertDesc]
    by_cases h : y.time ≤ r.time
    · rw [if_pos h]
    · rw [if_neg h]
      exact (List.Perm.cons y ih).trans (List.Perm.swap r y ys)

theorem sortDesc_perm : ∀ l : List Row, List.Perm (sortDesc l) l := by
  intro l
  induction l with
  | nil => simp [sortDesc]
  | cons y ys ih => exact (insertDesc_perm y (sortDesc ys)).trans (List.Perm.cons y ih)

theorem insertDesc_pairwise (r : Row) :
    ∀ l : List Row, List.Pairwise (fun a b => b.time ≤ a.time) l →
      List.Pairwise (fun a b => b.time ≤ a.time) (insertDesc r l) := by
  intro l
  induction l with
  | nil => intro _; simp [insertDesc]
  | cons y ys ih =>
    intro hp
    rcases List.pairwise_cons.mp hp with ⟨hy, hys⟩
    simp only [insertDesc]
    by_cases h : y.time ≤ r.time
    · rw [if_pos h]
      refine List.pairwise_cons.mpr ⟨?_, hp⟩
      intro z hz
      rcases List.mem_cons.mp hz with rfl | hz
      · exact h
      · exact le_trans (hy z hz) h
    · rw [if_neg h]
      refine List.pairwise_cons.mpr ⟨?_, ih hys⟩
      intro z hz
      rcases (mem_insertDesc r z ys).mp hz with rfl | hz
      · exact le_of_lt (lt_of_not_le h)
      · exact hy z hz

theorem sortDesc_pairwise : ∀ l : List Row,
    List.Pairwise (fun a b => b.time ≤ a.time) (sortDesc l) := by
  intro l
  induction l with
  | nil => simp [sortDesc]
  | cons y ys ih => exact insertDesc_pairwise y (sortDesc ys) ih

theorem mem_dedupFirst_aux (x : Row) :
    ∀ (l acc : List Row),
      (x ∈ l.foldl (fun m r => if r ∈ m then m else m ++ [r]) acc ↔ x ∈ acc ∨ x ∈ l) := by
  intro l
  induction l with
  | nil => intro acc; simp
  | cons a l ih =>
    intro acc
    simp only [List.foldl_cons]
    by_cases h : a ∈ acc
    · rw [if_pos h, ih]
      constructor
      · tauto
      · rintro (hx | hx)
        · exact Or.inl hx
        · rcases List.mem_cons.mp hx with rfl | hx
          · exact Or.inl h
          · exact Or.inr hx
    · rw [if_neg h, ih]
      simp only [List.mem_append, List.mem_singleton, List.mem_cons]
      tauto

theorem mem_dedupFirst (x : Row) (l : List Row) : x ∈ dedupFirst l ↔ x ∈ l := by
  unfold dedupFirst
  rw [mem_dedupFirst_aux]
  simp

theorem nodup_dedupFirst_aux :
    ∀ (l acc : List Row), acc.Nodup →
      (l.foldl (fun m r => if r ∈ m then m else m ++ [r]) acc).Nodup := by
  intro l
  induction l with
  | nil => intro acc h; simpa
  | cons a l ih =>
    intro acc h
    simp only [List.foldl_cons]
    by_cases ha : a ∈ acc
    · rw [if_pos ha]; exact ih acc h
    · rw [if_neg ha]
      refine ih _ (List.nodup_append.mpr ⟨h, List.nodup_singleton a, ?_⟩)
      intro z hz hz2
      rcases List.mem_singleton.mp hz2 with rfl
      exact ha hz

theorem nodup_dedupFirst (l : List Row) : (dedupFirst l).Nodup :=
  nodup_dedupFirst_aux l [] List.nodup_nil

theorem itemOk_processItemE (parse : String → Option Int) (cutoff : Int)
    (st : St) (a : Item) (h : itemOkB parse a = true) :
    processItemE parse cutoff st a = .ok (stepPure parse cutoff st a) := by
  cases hh : extractHref a with
  | none => simp [processItemE, stepPure, extract, hh]
  | some href =>
    cases hd : extractDt a with
    | none => simp [processItemE, stepPure, extract, hh, hd]
    | some ds =>
      cases hp : parse (replaceZ ds) with
      | none => exfalso; simp [itemOkB, hh, hd, hp] at h
      | some t =>
        by_cases hs : href ∈ st.seen
        · simp [processItemE, stepPure, extract, hh, hd, hp, hs]
        · by_cases hc : t < cutoff <;>
            simp [processItemE, stepPure, extract, hh, hd, hp, hs, hc]

theorem foldlM_ok (parse : String → Option Int) (cutoff : Int) :
    ∀ (items : List Item) (st : St), (∀ a ∈ items, itemOkB parse a = true) →
      items.foldlM (processItemE parse cutoff) st
        = .ok (items.foldl (stepPure parse cutoff) st) := by
  intro items
  induction items with
  | nil => intro st _; rfl
  | cons a items ih =>
    intro st hok
    have h1 : processItemE parse cutoff st a = .ok (stepPure parse cutoff st a) :=
      itemOk_processItemE parse cutoff st a (hok a (by simp))
    simp only [List.foldlM_cons, h1]
    simpa using ih (stepPure parse cutoff st a) (fun b hb => hok b (List.mem_cons_of_mem a hb))


theorem consistent_of_b (parse : String → Option Int) (P : List Item)
    (h : ∀ a ∈ P, ∀ b ∈ P, consistentB parse a b = true) : Consistent parse P := by
  intro a ha b hb hh t1 x1 t2 x2 hea heb
  have hc := h a ha b hb
  unfold consistentB at hc
  rw [hea, heb] at hc
  simp at hc
  exact hc

theorem inv_step (parse : String → Option Int) (cutoff : Int) (P : List Item) (a : Item)
    (st : St) (hc : Consistent parse (P ++ [a])) (hInv : Inv parse cutoff P st) :
    Inv parse cutoff (P ++ [a]) (stepPure parse cutoff st a) := by
  obtain ⟨I1, I2, I3⟩ := hInv
  cases hx : extract parse a with
  | none =>
    have hstep : stepPure parse cutoff st a = st := by simp [stepPure, hx]
    rw [hstep]
    refine ⟨?_, ?_, ?_⟩
    · intro r hr
      obtain ⟨b, hb, h, he, hcut⟩ := I1 r hr
      exact ⟨b, List.mem_append_left _ hb, h, he, hcut⟩
    · intro b hb h t txt he hcut
      rcases List.mem_append.mp hb with hb | hb
      · exact I2 b hb h t txt he hcut
      · rcases List.mem_singleton.mp hb with rfl
        rw [hx] at he; cases he
    · intro h hh
      obtain ⟨b, hb, t, txt, he, hcut⟩ := I3 h hh
      exact ⟨b, List.mem_append_left _ hb, t, txt, he, hcut⟩
  | some v =>
    obtain ⟨h, t, txt⟩ := v
    by_cases hseen : h ∈ st.seen
    · have hstep : stepPure parse cutoff st a = st := by simp [stepPure, hx, hseen]
      rw [hstep]
      refine ⟨?_, ?_, ?_⟩
      · intro r hr
        obtain ⟨b, hb, h2, he, hcut⟩ := I1 r hr
        exact ⟨b, List.mem_append_left _ hb, h2, he, hcut⟩
      · intro b hb h2 t2 txt2 he hcut
        rcases List.mem_append.mp hb with hb | hb
        · exact I2 b hb h2 t2 txt2 he hcut
        · have hba := List.mem_singleton.mp hb
          rw [hba] at he
          rw [hx] at he
          injection he with he2
          injection he2 with hl hr2
          injection hr2 with ht htxt
          subst hl; subst ht; subst htxt
          obtain ⟨b2, hb2, t3, txt3, he3, hcut3⟩ := I3 h hseen
          obtain ⟨rfl, rfl⟩ := hc b2 (List.mem_append_left _ hb2) a
            (List.mem_append_right _ (by simp)) h t3 txt3 t txt he3 hx
          exact I2 b2 hb2 h t3 txt3 he3 hcut3
      · intro h2 hh2
        obtain ⟨b, hb, t2, txt2, he, hcut⟩ := I3 h2 hh2
        exact ⟨b, List.mem_append_left _ hb, t2, txt2, he, hcut⟩
    · by_cases hlt : t < cutoff
      · have hstep : stepPure parse cutoff st a = st := by simp [stepPure, hx, hseen, hlt]
        rw [hstep]
        refine ⟨?_, ?_, ?_⟩
        · intro r hr
          obtain ⟨b, hb, h2, he, hcut⟩ := I1 r hr
          exact ⟨b, List.mem_append_left _ hb, h2, he, hcut⟩
        · intro b hb h2 t2 txt2 he hcut
          rcases List.mem_append.mp hb with hb | hb
          · exact I2 b hb h2 t2 txt2 he hcut
          · have hba := List.mem_singleton.mp hb
            rw [hba] at he
            rw [hx] at he
            injection he with he2
            injection he2 with hl hr2
            injection hr2 with ht htxt
            subst ht
            exact absurd hcut (not_le.mpr hlt)
        · intro h2 hh2
          obtain ⟨b, hb, t2, txt2, he, hcut⟩ := I3 h2 hh2
          exact ⟨b, List.mem_append_left _ hb, t2, txt2, he, hcut⟩
      · have hcut : cutoff ≤ t := not_lt.mp hlt
        have hstep : stepPure parse cutoff st a
            = ⟨st.rows ++ [⟨t, txt⟩], h :: st.seen⟩ := by
          simp [stepPure, hx, hseen, hlt]
        rw [hstep]
        refine ⟨?_, ?_, ?_⟩
        · intro r hr
          rcases List.mem_append.mp hr with hr | hr
          · obtain ⟨b, hb, h2, he, hcut2⟩ := I1 r hr
            exact ⟨b, List.mem_append_left _ hb, h2, he, hcut2⟩
          · rcases List.mem_singleton.mp hr with rfl
            exact ⟨a, List.mem_append_right _ (by simp), h, hx, hcut⟩
        · intro b hb h2 t2 txt2 he hcut2
          rcases List.mem_append.mp hb with hb | hb
          · exact List.mem_append_left _ (I2 b hb h2 t2 txt2 he hcut2)
          · have hba := List.mem_singleton.mp hb
            rw [hba] at he
            rw [hx] at he
            injection he with he2
            injection he2 with hl hr2
            injection hr2 with ht htxt
            subst ht; subst htxt
            exact List.mem_append_right _ (by simp)
        · intro h2 hh2
          rcases List.mem_cons.mp hh2 with rfl | hh2
          · exact ⟨a, List.mem_append_right _ (by simp), t, txt, hx, hcut⟩
          · obtain ⟨b, hb, t2, txt2, he, hcut2⟩ := I3 h2 hh2
            exact ⟨b, List.mem_append_left _ hb, t2, txt2, he, hcut2⟩

theorem inv_foldl (parse : String → Option Int) (cutoff : Int) :
    ∀ (as P : List Item) (st : St),
      Consistent parse (P ++ as) → Inv parse cutoff P st →
      Inv parse cutoff (P ++ as) (as.foldl (stepPure parse cutoff) st) := by
  intro as
  induction as with
  | nil => intro P st _ hInv; simpa using hInv
  | cons a as ih =>
    intro P st hc hInv
    have hassoc : P ++ a :: as = (P ++ [a]) ++ as := by simp
    rw [hassoc] at hc ⊢
    refine ih (P ++ [a]) (stepPure parse cutoff st a) hc ?_
    refine inv_step parse cutoff P a st ?_ hInv
    intro x hx y hy
    exact hc x (by revert hx; simp; tauto) y (by revert hy; simp; tauto)

theorem scrapeRows_ok (parse : String → Option Int) (now hours_back : Int) :
    ∀ (iters : List (List Item)) (st : St),
      (∀ a ∈ iters.flatten, itemOkB parse a = true) →
      iters.foldlM
        (fun st items => items.foldlM (processItemE parse (cutoffOf now hours_back)) st) st
        = .ok (iters.flatten.foldl (stepPure parse (cutoffOf now hours_back)) st) := by
  intro iters
  induction iters with
  | nil => intro st _; rfl
  | cons items iters ih =>
    intro st hok
    have h1 := foldlM_ok parse (cutoffOf now hours_back) items st
      (fun a ha => hok a (by simp [ha]))
    simp only [List.foldlM_cons, h1]
    rw [List.flatten_cons, List.foldl_append]
    simpa using ih _ (fun a ha => hok a (by simp [ha]))

/-! ### Collector claims -/

/-- C2, confirmed.  Under the identity-stability assumption of the spec
(two renderings with the same identifier carry the same instant and text)
and with every rendered timestamp parseable, a completed run contains
exactly the records of extractable items whose instant is at or after
cutoff = now - hours_back, for any scroll order and any re-appearance of
items across iterations; equality with the cutoff is retained. -/
theorem c2_cutoff_correct (parse : String → Option Int) (now hours_back : Int)
    (iters : List (List Item)) (out : List Row)
    (hcons : ∀ a ∈ iters.flatten, ∀ b ∈ iters.flatten, consistentB parse a b = true)
    (hok : ∀ a ∈ iters.flatten, itemOkB parse a = true)
    (hrun : scrape_last_hours parse now hours_back iters = .ok out) :
    ∀ t txt, (⟨t, txt⟩ : Row) ∈ out ↔
      ∃ a ∈ iters.flatten, ∃ h, extract parse a = some (h, t, txt)
        ∧ cutoffOf now hours_back ≤ t := by
  unfold scrape_last_hours scrapeRows at hrun
  rw [scrapeRows_ok parse now hours_back iters ⟨[], []⟩ hok] at hrun
  set stF := iters.flatten.foldl (stepPure parse (cutoffOf now hours_back)) ⟨[], []⟩ with hstF
  simp only at hrun
  injection hrun with hout
  have hInv : Inv parse (cutoffOf now hours_back) iters.flatten stF := by
    have h0 : Inv parse (cutoffOf now hours_back) [] ⟨[], []⟩ := by
      refine ⟨?_, ?_, ?_⟩ <;> simp
    have := inv_foldl parse (cutoffOf now hours_back) iters.flatten [] ⟨[], []⟩
      (by simpa using consistent_of_b parse iters.flatten hcons) h0
    simpa using this
  obtain ⟨I1, I2, I3⟩ := hInv
  intro t txt
  rw [← hout, mem_sortDesc, mem_dedupFirst]
  constructor
  · intro hr
    obtain ⟨a, ha, h, he, hcut⟩ := I1 ⟨t, txt⟩ hr
    exact ⟨a, ha, h, he, hcut⟩
  · rintro ⟨a, ha, h, he, hcut⟩
    exact I2 a ha h t txt he hcut

/-- Witness for c2_cutoff_correct: a single item whose instant equals the
cutoff is retained. -/
theorem c2_witness : (⟨0, "hello"⟩ : Row) ∈ ([⟨0, "hello"⟩] : List Row) :=
  (c2_cutoff_correct parse0 3600 1 [[itemT0]] [⟨0, "hello"⟩] (by decide) (by decide)
    (by decide) 0 "hello").mpr ⟨itemT0, by decide, "/status/1", by decide, by decide⟩

/-- C6, counterexample.  An item whose identifier and timestamp attribute
are both present but whose timestamp string does not parse is not
silently skipped: datetime.fromisoformat raises and the whole run fails,
instead of continuing without error as the claim states. -/
theorem c6_counterexample :
    scrape_last_hours parse0 3600 1 [[itemBad]]
      = .error "ValueError: invalid isoformat string" := by decide

/-- C6, amended.  Per rendered item: a missing or empty identifier, or a
missing or empty timestamp attribute, is silently skipped (state
unchanged, no error); an unseen item whose timestamp attribute is present
but malformed makes the run raise; an unseen item whose attributes parse
and whose instant is at or after the cutoff appends exactly its record
and marks its identifier seen. -/
theorem c6_extraction_amended (parse : String → Option Int) (cutoff : Int)
    (st : St) (a : Item) :
    (extractHref a = none → processItemE parse cutoff st a = .ok st) ∧
    (∀ h, extractHref a = some h → h ∉ st.seen → extractDt a = none →
      processItemE parse cutoff st a = .ok st) ∧
    (∀ h ds, extractHref a = some h → h ∉ st.seen → extractDt a = some ds →
      parse (replaceZ ds) = none →
      processItemE parse cutoff st a = .error "ValueError: invalid isoformat string") ∧
    (∀ h ds t, extractHref a = some h → h ∉ st.seen → extractDt a = some ds →
      parse (replaceZ ds) = some t → cutoff ≤ t →
      processItemE parse cutoff st a
        = .ok ⟨st.rows ++ [⟨t, extractText a⟩], h :: st.seen⟩) := by
  refine ⟨?_, ?_, ?_, ?_⟩
  · intro hh
    simp [processItemE, hh]
  · intro h hh hs hd
    simp [processItemE, hh, hs, hd]
  · intro h ds hh hs hd hp
    simp [processItemE, hh, hs, hd, hp]
  · intro h ds t hh hs hd hp hcut
    simp [processItemE, hh, hs, hd, hp, not_lt.mpr hcut]

/-- Witness for c6_extraction_amended: the malformed item raises. -/
theorem c6_witness :
    processItemE parse0 0 ⟨[], []⟩ itemBad
      = .error "ValueError: invalid isoformat string" :=
  (c6_extraction_amended parse0 0 ⟨[], []⟩ itemBad).2.2.1 "/status/9" "BAD"
    (by decide) (by decide) (by decide) (by decide)

/-- C7, counterexample.  Two items with distinct identities but the same
instant and text both enter rows, yet the final step keeps only one
record: it deduplicates by the (timestamp, text) value, not by record
identity, so the claimed retain-first-per-identity step would keep two
records where the code keeps one. -/
theorem c7_counterexample :
    scrapeRows parse0 3600 1 [[itemT0, itemDup]] = .ok [⟨0, "hello"⟩, ⟨0, "hello"⟩] ∧
    scrape_last_hours parse0 3600 1 [[itemT0, itemDup]] = .ok [⟨0, "hello"⟩] := by decide

/-- C7, amended.  The final step deduplicates rows by the (timestamp,
text) value, retaining the first occurrence of each value, then sorts:
the output is sortDesc (dedupFirst rows), it has no duplicate values, and
as a set it equals the accumulated rows (multiplicity can drop when
distinct identities yield identical records). -/
theorem c7_dedup_amended (parse : String → Option Int) (now hours_back : Int)
    (iters : List (List Item)) (rows out : List Row)
    (hrows : scrapeRows parse now hours_back iters = .ok rows)
    (hrun : scrape_last_hours parse now hours_back iters = .ok out) :
    out = sortDesc (dedupFirst rows) ∧
    (∀ r : Row, r ∈ out ↔ r ∈ rows) ∧
    out.Nodup := by
  unfold scrape_last_hours at hrun
  rw [hrows] at hrun
  simp only at hrun
  injection hrun with hout
  refine ⟨hout.symm, ?_, ?_⟩
  · intro r
    rw [← hout, mem_sortDesc, mem_dedupFirst]
  · rw [← hout]
    exact (sortDesc_perm (dedupFirst rows)).symm.nodup (nodup_dedupFirst rows)

/-- Witness for c7_dedup_amended on the duplicate-record run. -/
theorem c7_witness :
    ([⟨0, "hello"⟩] : List Row) = sortDesc (dedupFirst [⟨0, "hello"⟩, ⟨0, "hello"⟩]) ∧
    (∀ r : Row, r ∈ ([⟨0, "hello"⟩] : List Row) ↔ r ∈ [⟨0, "hello"⟩, ⟨0, "hello"⟩]) ∧
    ([⟨0, "hello"⟩] : List Row).Nodup :=
  c7_dedup_amended parse0 3600 1 [[itemT0, itemDup]] _ _ (by decide) (by decide)

/-- C9, confirmed.  Every completed collection run is sorted newest
first: each adjacent pair of output records has timestamp[i] at least
timestamp[i+1]. -/
theorem c9_sorted (parse : String → Option Int) (now hours_back : Int)
    (iters : List (List Item)) (out : List Row)
    (hrun : scrape_last_hours parse now hours_back iters = .ok out) :
    List.Chain' (fun a b : Row => b.time ≤ a.time) out := by
  unfold scrape_last_hours at hrun
  cases hsr : scrapeRows parse now hours_back iters with
  | error e => rw [hsr] at hrun; cases hrun
  | ok rows =>
    rw [hsr] at hrun
    simp only at hrun
    injection hrun with hout
    rw [← hout]
    exact (sortDesc_pairwise (dedupFirst rows)).chain'

/-- Witness for c9_sorted: a two-item run rendered oldest first comes out
newest first. -/
theorem c9_witness :
    List.Chain' (fun a b : Row => b.time ≤ a.time)
      ([⟨3600, "world"⟩, ⟨0, "hello"⟩] : List Row) :=
  c9_sorted parse0 3600 1 [[itemT0, itemT1]] _ (by decide)


/-! ### Pipeline claims -/

/-- C3, counterexample.  With the credential absent, the run does fail
with the configuration error, but only after the Collector has navigated:
the navigate event precedes the error, contradicting the claim that the
error is raised before any navigation request. -/
theorem c3_counterexample :
    mainModel env0 parse0 fmt0 gen0 gen0 0 0 [] 10
      = ([Ev.navigate], .error "Missing GOOGLE_API_KEY environment variable.") := by decide

/-- C3, amended.  With the credential absent, no generation-service
request is ever issued, and whenever collection completes the run fails
with the configuration error - raised after the Collector has already
performed its navigation I/O (main scrapes before require_gemini runs). -/
theorem c3_credential_amended (env : String → Option String) (parse : String → Option Int)
    (fmtTime : Int → String) (gen1 gen2 : Chars → Option Chars)
    (now hours_back : Int) (iters : List (List Item)) (B : Nat)
    (hmiss : env "GOOGLE_API_KEY" = none) :
    Ev.genRequest ∉ (mainModel env parse fmtTime gen1 gen2 now hours_back iters B).1 ∧
    (∀ rows, scrape_last_hours parse now hours_back iters = .ok rows →
      mainModel env parse fmtTime gen1 gen2 now hours_back iters B
        = ([Ev.navigate], .error "Missing GOOGLE_API_KEY environment variable.")) := by
  have hreq : require_gemini env = .error "Missing GOOGLE_API_KEY environment variable." := by
    simp [require_gemini, hmiss]
  constructor
  · cases hs : scrape_last_hours parse now hours_back iters with
    | error e => simp [mainModel, hs]
    | ok rows => simp [mainModel, hs, summarize_tweets_to_md, hreq]
  · intro rows hs
    simp [mainModel, hs, summarize_tweets_to_md, hreq]

/-- Witness for c3_credential_amended on an empty run. -/
theorem c3_witness :
    Ev.genRequest ∉ (mainModel env0 parse0 fmt0 gen0 gen0 0 0 [] 10).1 :=
  (c3_credential_amended env0 parse0 fmt0 gen0 gen0 0 0 [] 10 rfl).1

/-- C5, confirmed.  When the credential is present but the persisted
corpus text strips to empty, summarize_tweets_to_md fails with the error
naming the offending path, with an empty effect trace: no generation
request is issued and no summary file is written. -/
theorem c5_empty_corpus (env : String → Option String) (gen1 gen2 : Chars → Option Chars)
    (content : Chars) (path : String) (B : Nat) (k : String)
    (hk : env "GOOGLE_API_KEY" = some k) (hk2 : k ≠ "")
    (hempty : pyStrip content = []) :
    summarize_tweets_to_md env gen1 gen2 content path B
      = ([], .error ("Tweet file is empty: " ++ path)) := by
  simp [summarize_tweets_to_md, require_gemini, hk, hk2, hempty]

/-- Witness for c5_empty_corpus on a whitespace-only corpus file. -/
theorem c5_witness :
    summarize_tweets_to_md envK gen0 gen0 "\n\n".toList OUT_TXT 10
      = ([], .error ("Tweet file is empty: " ++ OUT_TXT)) :=
  c5_empty_corpus envK gen0 gen0 "\n\n".toList OUT_TXT 10 "k" rfl (by decide) (by decide)

end Scrape
